import Mathlib

/-!
Shallow embedding of the McCulloch-Pitts notebook
(`src/demos/mcculloch-pitts/McCulloch-Pitts Neurons.ipynb`) of the
robclewley/Retina repository, and proofs about it.

The notebook defines:
* `MPInput` : a binary input with an excitatory/inhibitory polarity and a
  mutable value (initially 0), set by `trigger`;
* `MPNeuron` : a threshold unit over an ordered list of inputs, evaluated
  by `activate`;
* `AND`, `OR`, `NOT` : gate constructors building a fresh neuron per call;
* `Decoder` : built from a list of bit-vectors; `decode()` returns a
  stateful closure that ORs the activations of one "decoder unit" per
  vector.

Python objects are mutable; the embedding passes the mutated values
explicitly.  Machine integers are modelled as `Nat`/`Int` (Python
integers are unbounded, so no wraparound is involved).
-/

namespace Retina

/-- Embeds the notebook's `MPInput` class: `excitatory` is the polarity
flag fixed at construction, `value` the current binary signal. -/
structure MPInput where
  excitatory : Bool
  value : Nat
deriving DecidableEq, Repr

/-- `MPInput.__init__(excitatory)`: the value starts at 0. -/
def MPInput.new (e : Bool) : MPInput := ⟨e, 0⟩

/-- `MPInput.trigger(value)`: sets the current value. -/
def MPInput.trigger (inp : MPInput) (v : Nat) : MPInput := { inp with value := v }

/-- Embeds the notebook's `MPNeuron` class. -/
structure MPNeuron where
  threshold : Int
  inputs : List MPInput
deriving DecidableEq, Repr

/-- The loop of `MPNeuron.activate`, with `exc` the running
`excitations` accumulator.  An excitatory input adds its value; an
inhibitory input with truthy (nonzero) value returns 0 immediately; after
the loop the neuron fires iff `excitations >= threshold`. -/
def MPNeuron.activateAux (t : Int) : Nat → List MPInput → Nat
  | exc, [] => if t ≤ (exc : Int) then 1 else 0
  | exc, inp :: rest =>
    if inp.excitatory then MPNeuron.activateAux t (exc + inp.value) rest
    else if inp.value ≠ 0 then 0
    else MPNeuron.activateAux t exc rest

/-- `MPNeuron.activate()`: the accumulator starts at 0. -/
def MPNeuron.activate (n : MPNeuron) : Nat :=
  MPNeuron.activateAux n.threshold 0 n.inputs

/-- The notebook's `AND(x1, x2)`: two excitatory inputs triggered with
`x1`, `x2`, threshold 2, then activated. -/
def AND (x1 x2 : Nat) : Nat :=
  MPNeuron.activate ⟨2, [(MPInput.new true).trigger x1, (MPInput.new true).trigger x2]⟩

/-- The notebook's `OR(x1, x2)`: two excitatory inputs, threshold 1. -/
def OR (x1 x2 : Nat) : Nat :=
  MPNeuron.activate ⟨1, [(MPInput.new true).trigger x1, (MPInput.new true).trigger x2]⟩

/-- The notebook's `NOT(x)`: one inhibitory input, threshold 0. -/
def NOT (x : Nat) : Nat :=
  MPNeuron.activate ⟨0, [(MPInput.new false).trigger x]⟩

/-- Embeds the `Decoder` class: the stored vectors and
`vec_length = len(vectors[0])`. -/
structure Decoder where
  vectors : List (List Nat)
  vec_length : Nat
deriving DecidableEq, Repr

/-- `Decoder.__init__(vectors)`.  `len(self.vectors[0])` raises
`IndexError` on an empty list, so construction fails there.  The
subsequent `assert(len(vec) == self.vec_length for vec in vectors)`
asserts a generator object, which is always truthy in Python, so it
never fails and imposes no constraint: it is omitted. -/
def Decoder.make (vectors : List (List Nat)) : Except String Decoder :=
  match vectors with
  | [] => .error "IndexError: list index out of range"
  | v :: _ => .ok ⟨vectors, v.length⟩

/-- One "decoder unit" of `Decoder.decode`: threshold `sum(vector)`, and
for each `i in range(vec_length)` an excitatory input when
`vector[i] == 1`, inhibitory otherwise.  Python raises `IndexError` when
`i` is out of range of `vector`; the `getD` default is never read in any
theorem below, since all of them assume `vector` has length `n`. -/
def decoderUnit (n : Nat) (v : List Nat) : MPNeuron :=
  ⟨(v.sum : Int), (List.range n).map fun i => MPInput.new (v.getD i 0 == 1)⟩

/-- The loop `for i in range(...): inputs[i].trigger(args[i])`, walking
the inputs and arguments in parallel.  When `args` is shorter than the
inputs Python raises `IndexError`; here the remaining inputs are left
unchanged, a case no theorem below reaches (all assume full arity). -/
def triggerList : List MPInput → List Nat → List MPInput
  | [], _ => []
  | inps, [] => inps
  | inp :: inps, a :: rest => inp.trigger a :: triggerList inps rest

/-- Re-triggering all of a neuron's inputs with fresh arguments. -/
def MPNeuron.triggerArgs (u : MPNeuron) (args : List Nat) : MPNeuron :=
  { u with inputs := triggerList u.inputs args }

/-- The mutable state captured by the closure returned by
`Decoder.decode`: the decoder units (kept here in construction order,
with their inputs' current values) and whether the in-place
`decoder_units.reverse()` calls have left the list reversed. -/
structure DecState where
  units : List MPNeuron
  revd : Bool
deriving DecidableEq, Repr

/-- `Decoder.decode()` builds one decoder unit per vector; the returned
closure starts with the list unreversed and all input values 0. -/
def Decoder.decode (d : Decoder) : DecState :=
  ⟨d.vectors.map (decoderUnit d.vec_length), false⟩

/-- Triggers the inputs of the LAST-constructed unit: the closure's
leftover `inputs` variable still aliases the input list built for the
last vector, whatever position that unit occupies after reversals. -/
def updateLast : List MPNeuron → List Nat → List MPNeuron
  | [], _ => []
  | [u], args => [u.triggerArgs args]
  | u :: u2 :: us, args => u :: updateLast (u2 :: us) args

/-- One invocation `decoder(*args)` of the closure returned by
`decode()`:
1. `inputs[i].trigger(args[i])` — triggers the last-built unit's inputs;
2. `decoder_units.reverse()` — flips the shared list in place;
3. `or_arg = decoder_units[0].activate()` — activates the head of the
   reversed list with whatever values its inputs currently hold;
4. for each unit in the (reversed) list: re-trigger its inputs with
   `args`, activate, and fold with the `OR` gate.
Returns the result and the closure's state after the call. -/
def decoderCall (s : DecState) (args : List Nat) : Nat × DecState :=
  let units1 := updateLast s.units args
  let revd1 := !s.revd
  let cur := if revd1 then units1.reverse else units1
  let or0 := (cur.headD ⟨0, []⟩).activate
  let cur2 := cur.map fun u => u.triggerArgs args
  let res := cur2.foldl (fun acc u => OR acc u.activate) or0
  (res, ⟨if revd1 then cur2.reverse else cur2, revd1⟩)

/-- Runs a sequence of invocations of one decoder closure, collecting
the returned values. -/
def runCalls (s : DecState) : List (List Nat) → List Nat
  | [] => []
  | a :: rest =>
    let p := decoderCall s a
    p.1 :: runCalls p.2 rest

/-- Builds a `Decoder` from `V`, calls `decode()`, and runs the closure
on the given argument lists; `.error` when construction fails. -/
def decoderRun (V : List (List Nat)) (calls : List (List Nat)) :
    Except String (List Nat) :=
  (Decoder.make V).map fun d => runCalls d.decode calls

/-! ### Characterizing `MPNeuron.activate` -/

/-- Whether some inhibitory input currently holds a nonzero value. -/
def inhibitedL (l : List MPInput) : Bool :=
  l.any fun inp => !inp.excitatory && inp.value != 0

/-- Sum of the values of the excitatory inputs. -/
def excitSum (l : List MPInput) : Nat :=
  (l.map fun inp => if inp.excitatory then inp.value else 0).sum

lemma activateAux_eq (t : Int) (acc : Nat) (l : List MPInput) :
    MPNeuron.activateAux t acc l =
      if inhibitedL l then 0
      else if t ≤ ((acc + excitSum l : Nat) : Int) then 1 else 0 := by
  induction l generalizing acc with
  | nil => simp [MPNeuron.activateAux, inhibitedL, excitSum]
  | cons inp rest ih =>
    rcases he : inp.excitatory with _ | _
    · by_cases hv : inp.value = 0
      · simp [MPNeuron.activateAux, inhibitedL, excitSum, he, hv, ih]
      · simp [MPNeuron.activateAux, inhibitedL, he, hv]
    · simp only [MPNeuron.activateAux, he, if_true, ih, inhibitedL, excitSum,
        List.any_cons, List.map_cons, List.sum_cons, Bool.not_true,
        Bool.false_and, Bool.false_or]
      rw [← Nat.add_assoc]

lemma activate_eq (u : MPNeuron) :
    u.activate =
      if inhibitedL u.inputs then 0
      else if u.threshold ≤ (excitSum u.inputs : Int) then 1 else 0 := by
  rw [MPNeuron.activate, activateAux_eq]
  simp

lemma activate_le_one (u : MPNeuron) : u.activate ≤ 1 := by
  rw [activate_eq]
  split <;> [omega; skip]
  split <;> omega

/-! ### C2: the activation rule -/

/-- C2: for a neuron with integer threshold `t` and bit-valued inputs,
`activate` returns 0 when some inhibitory input has value 1, and
otherwise returns 1 exactly when the sum of the excitatory inputs'
values is at least `t`; moreover permuting the inputs never changes the
returned value. -/
theorem activate_correct (t : Int) (l : List MPInput)
    (hbits : ∀ inp ∈ l, inp.value ≤ 1) :
    (MPNeuron.activate ⟨t, l⟩ =
      if ∃ inp ∈ l, inp.excitatory = false ∧ inp.value = 1 then 0
      else if t ≤ (excitSum l : Int) then 1 else 0) ∧
    (∀ l2, l.Perm l2 →
      MPNeuron.activate ⟨t, l⟩ = MPNeuron.activate ⟨t, l2⟩) := by
  have hinh : ∀ l' : List MPInput, (∀ inp ∈ l', inp.value ≤ 1) →
      (inhibitedL l' = true ↔ ∃ inp ∈ l', inp.excitatory = false ∧ inp.value = 1) := by
    intro l' hb
    simp only [inhibitedL, List.any_eq_true, Bool.and_eq_true, Bool.not_eq_true',
      bne_iff_ne, ne_eq]
    constructor
    · rintro ⟨inp, hmem, hex, hv⟩
      exact ⟨inp, hmem, hex, by have := hb inp hmem; omega⟩
    · rintro ⟨inp, hmem, hex, hv⟩
      exact ⟨inp, hmem, hex, by omega⟩
  constructor
  · rw [activate_eq]
    by_cases h : inhibitedL l = true
    · rw [if_pos h, if_pos ((hinh l hbits).mp h)]
    · have h2 : ¬ ∃ inp ∈ l, inp.excitatory = false ∧ inp.value = 1 :=
        fun hc => h ((hinh l hbits).mpr hc)
      rw [if_neg h, if_neg h2]
  · intro l2 hperm
    rw [activate_eq, activate_eq]
    have key : ∀ a b : List MPInput, a.Perm b →
        inhibitedL a = true → inhibitedL b = true := by
      intro a b hab ha
      simp only [inhibitedL, List.any_eq_true] at ha ⊢
      obtain ⟨inp, hmem, hp⟩ := ha
      exact ⟨inp, hab.mem_iff.mp hmem, hp⟩
    have h1 : inhibitedL l = inhibitedL l2 := by
      rcases hb1 : inhibitedL l with _ | _ <;> rcases hb2 : inhibitedL l2 with _ | _
      · rfl
      · exact absurd (key l2 l hperm.symm hb2) (by simp [hb1])
      · exact absurd (key l l2 hperm hb1) (by simp [hb2])
      · rfl
    have h2 : excitSum l = excitSum l2 := (hperm.map _).sum_eq
    rw [h1, h2]

/-- Witness for C2 at `t = 1`,
`l = [excitatory with value 1, inhibitory with value 0]`. -/
theorem activate_correct_witness :
    (∀ inp ∈ [(⟨true, 1⟩ : MPInput), ⟨false, 0⟩], inp.value ≤ 1) ∧
    ((MPNeuron.activate ⟨1, [⟨true, 1⟩, ⟨false, 0⟩]⟩ =
      if ∃ inp ∈ [(⟨true, 1⟩ : MPInput), ⟨false, 0⟩],
          inp.excitatory = false ∧ inp.value = 1 then 0
      else if (1 : Int) ≤ (excitSum [⟨true, 1⟩, ⟨false, 0⟩] : Int) then 1 else 0) ∧
    (∀ l2, List.Perm [(⟨true, 1⟩ : MPInput), ⟨false, 0⟩] l2 →
      MPNeuron.activate ⟨1, [⟨true, 1⟩, ⟨false, 0⟩]⟩ =
        MPNeuron.activate ⟨1, l2⟩)) :=
  ⟨by decide, activate_correct 1 [⟨true, 1⟩, ⟨false, 0⟩] (by decide)⟩

/-! ### C8: the gate truth tables -/

/-- C8: for all bits, `AND x1 x2 = 1` iff both are 1, `OR x1 x2 = 1`
iff at least one is 1, and `NOT x = 1 - x`. -/
theorem gates_truth_tables (x1 x2 x : Nat)
    (h1 : x1 ≤ 1) (h2 : x2 ≤ 1) (hx : x ≤ 1) :
    (AND x1 x2 = 1 ↔ x1 = 1 ∧ x2 = 1) ∧
    (OR x1 x2 = 1 ↔ x1 = 1 ∨ x2 = 1) ∧
    NOT x = 1 - x := by
  interval_cases x1 <;> interval_cases x2 <;> interval_cases x <;> decide

/-- Witness for C8 at `x1 = 1`, `x2 = 0`, `x = 1`. -/
theorem gates_truth_tables_witness :
    ((1 : Nat) ≤ 1 ∧ (0 : Nat) ≤ 1) ∧
    ((AND 1 0 = 1 ↔ (1 : Nat) = 1 ∧ (0 : Nat) = 1) ∧
     (OR 1 0 = 1 ↔ (1 : Nat) = 1 ∨ (0 : Nat) = 1) ∧
     NOT 1 = 1 - 1) :=
  ⟨by decide, gates_truth_tables 1 0 1 (by decide) (by decide) (by decide)⟩

/-! ### C6 and C3: construction-time validation -/

/-- C6: `Decoder([])` fails during construction (Python raises on
`len(self.vectors[0])`) and produces no `Decoder` object. -/
theorem decoder_empty_fails :
    Decoder.make ([] : List (List Nat)) =
      .error "IndexError: list index out of range" := rfl

/-- C3 is false on the code: `Decoder([[0,1],[1,0,0]])` succeeds and
returns a Decoder with `vec_length = 2`, because the length assert in
`__init__` tests a generator object, which is always truthy. -/
theorem decoder_mismatched_constructs :
    Decoder.make [[0, 1], [1, 0, 0]] = .ok ⟨[[0, 1], [1, 0, 0]], 2⟩ := rfl

/-! ### C1, C4, C7: the decoder closure is stateful across calls -/

/-- C1 is false on the code: for `V = [[0,1],[1,0]]`, calling the
decoder with `(0,1)` and then `(0,0)` returns `[1, 1]`, although
`[0,0]` is not in `V` (the second call should return 0).  The closure
reversed `decoder_units` in place and ORed in the stale activation of
the first unit, whose inputs still held the previous call's
arguments. -/
theorem decoder_second_call_wrong :
    decoderRun [[0, 1], [1, 0]] [[0, 1], [0, 0]] = .ok [1, 1] ∧
    [0, 0] ∉ [[0, 1], [1, 0]] := ⟨rfl, by decide⟩

/-- C4 is false on the code: the same closure, called with the same
tuple `(0,0)` as its first and fourth invocation, returns 0 the first
time and 1 the fourth time; the result depends on call history. -/
theorem decoder_not_pure :
    decoderRun [[0, 1], [1, 0]] [[0, 0], [0, 1], [0, 1], [0, 0]] =
      .ok [0, 1, 1, 1] := rfl

/-- C7 is false on the code: duplicating the single vector of
`V = [[1]]` changes the observable behavior: the call sequence
`(1)`, `(0)` returns `[1, 0]` for `Decoder([[1]])` but `[1, 1]` for
`Decoder([[1],[1]])`. -/
theorem decoder_duplicate_changes_behavior :
    decoderRun [[1]] [[1], [0]] = .ok [1, 0] ∧
    decoderRun [[1], [1]] [[1], [0]] = .ok [1, 1] := ⟨rfl, rfl⟩

/-! ### C5: a decoder unit recognizes exactly its own vector -/

/-- The inputs of a decoder unit for `v` after being triggered with the
equal-length argument vector `a`: one input per position, excitatory
when the vector bit is 1, holding the corresponding argument bit. -/
def pairInputs (v a : List Nat) : List MPInput :=
  List.zipWith (fun b x => (⟨b == 1, x⟩ : MPInput)) v a

lemma inhibitedL_cons (c : MPInput) (l : List MPInput) :
    inhibitedL (c :: l) = ((!c.excitatory && c.value != 0) || inhibitedL l) := rfl

lemma excitSum_cons (c : MPInput) (l : List MPInput) :
    excitSum (c :: l) = (if c.excitatory then c.value else 0) + excitSum l := rfl

lemma buildInputs_eq (v : List Nat) :
    (List.range v.length).map (fun i => MPInput.new (v.getD i 0 == 1)) =
      v.map fun b => MPInput.new (b == 1) := by
  induction v with
  | nil => simp
  | cons b v ih =>
    rw [List.length_cons, List.range_succ_eq_map, List.map_cons, List.map_map]
    have hcomp : ((fun i => MPInput.new ((b :: v).getD i 0 == 1)) ∘ Nat.succ) =
        fun i => MPInput.new (v.getD i 0 == 1) := by
      funext i
      simp
    rw [hcomp, ih, List.getD_cons_zero, List.map_cons]

lemma triggerList_map_new (v a : List Nat) (h : a.length = v.length) :
    triggerList (v.map fun b => MPInput.new (b == 1)) a = pairInputs v a := by
  induction v generalizing a with
  | nil =>
    rw [List.length_nil, List.length_eq_zero] at h
    subst h
    rfl
  | cons b v ih =>
    cases a with
    | nil => simp at h
    | cons x a =>
      simp only [List.length_cons, Nat.succ_inj] at h
      simp only [List.map_cons, triggerList, pairInputs, List.zipWith_cons_cons,
        MPInput.new, MPInput.trigger]
      congr 1
      exact ih a h

lemma excitSum_pair_le (v a : List Nat)
    (hv : ∀ b ∈ v, b ≤ 1) (ha : ∀ x ∈ a, x ≤ 1) :
    excitSum (pairInputs v a) ≤ v.sum := by
  induction v generalizing a with
  | nil => simp [pairInputs, excitSum]
  | cons b v ih =>
    cases a with
    | nil => simp [pairInputs, excitSum]
    | cons x a =>
      have hb : b ≤ 1 := hv b (List.mem_cons_self b v)
      have hx : x ≤ 1 := ha x (List.mem_cons_self x a)
      have htl := ih a (fun c hc => hv c (List.mem_cons_of_mem b hc))
        (fun c hc => ha c (List.mem_cons_of_mem x hc))
      have hpc : pairInputs (b :: v) (x :: a) =
          (⟨b == 1, x⟩ : MPInput) :: pairInputs v a := rfl
      rw [hpc, excitSum_cons, List.sum_cons]
      dsimp only
      by_cases hb1 : b = 1
      · rw [if_pos (by simpa using hb1)]
        omega
      · rw [if_neg (by simpa using hb1)]
        omega

lemma pair_char (v a : List Nat)
    (hv : ∀ b ∈ v, b ≤ 1) (ha : ∀ x ∈ a, x ≤ 1) (hl : a.length = v.length) :
    (inhibitedL (pairInputs v a) = false ∧
      v.sum ≤ excitSum (pairInputs v a)) ↔ a = v := by
  induction v generalizing a with
  | nil =>
    rw [List.length_nil, List.length_eq_zero] at hl
    subst hl
    simp [pairInputs, inhibitedL, excitSum]
  | cons b v ih =>
    cases a with
    | nil => simp at hl
    | cons x a =>
      simp only [List.length_cons, Nat.succ_inj] at hl
      have hb : b ≤ 1 := hv b (List.mem_cons_self b v)
      have hx : x ≤ 1 := ha x (List.mem_cons_self x a)
      have hv2 : ∀ c ∈ v, c ≤ 1 := fun c hc => hv c (List.mem_cons_of_mem b hc)
      have ha2 : ∀ c ∈ a, c ≤ 1 := fun c hc => ha c (List.mem_cons_of_mem x hc)
      have htl := ih a hv2 ha2 hl
      have hle := excitSum_pair_le v a hv2 ha2
      have hpc : pairInputs (b :: v) (x :: a) =
          (⟨b == 1, x⟩ : MPInput) :: pairInputs v a := rfl
      rw [hpc, inhibitedL_cons, excitSum_cons, List.sum_cons]
      dsimp only
      rcases (show b = 0 ∨ b = 1 by omega) with rfl | rfl <;>
        rcases (show x = 0 ∨ x = 1 by omega) with rfl | rfl
      · simpa using htl
      · simp
      · constructor
        · rintro ⟨h1, h2⟩
          exfalso
          simp only [show (((1 : Nat) == 1) : Bool) = true from rfl, if_true] at h2
          omega
        · intro hcontra
          exfalso
          rw [List.cons_eq_cons] at hcontra
          omega
      · simp only [show (((1 : Nat) == 1) : Bool) = true from rfl, Bool.not_true,
          Bool.false_and, Bool.false_or, if_true, List.cons_eq_cons, true_and]
        rw [Nat.add_le_add_iff_left]
        exact htl

/-- The core fact behind C5: the decoder unit built for vector `v`
(with `n = v.length`), after its inputs are triggered with an
equal-length bit-vector `a`, activates to 1 exactly when `a = v`. -/
lemma decoderUnit_activate (n : Nat) (v a : List Nat)
    (hv : ∀ b ∈ v, b ≤ 1) (ha : ∀ x ∈ a, x ≤ 1)
    (hvl : v.length = n) (hal : a.length = n) :
    ((decoderUnit n v).triggerArgs a).activate = if a = v then 1 else 0 := by
  subst hvl
  have hinps : (decoderUnit v.length v).triggerArgs a =
      ⟨(v.sum : Int), pairInputs v a⟩ := by
    simp only [decoderUnit, MPNeuron.triggerArgs, buildInputs_eq]
    rw [triggerList_map_new v a hal]
  rw [hinps, activate_eq]
  simp only []
  have hchar := pair_char v a hv ha hal
  by_cases hmatch : a = v
  · obtain ⟨h1, h2⟩ := hchar.mpr hmatch
    rw [if_neg (by simp [h1]), if_pos (by exact_mod_cast h2), if_pos hmatch]
  · rw [if_neg hmatch]
    by_cases hinh : inhibitedL (pairInputs v a) = true
    · rw [if_pos hinh]
    · have h1 : inhibitedL (pairInputs v a) = false := by
        simpa using hinh
      rw [if_neg hinh, if_neg]
      intro hc
      exact hmatch (hchar.mp ⟨h1, by exact_mod_cast hc⟩)

/-- C5: inside `decode()`, the unit built for a vector `v` of the
Decoder — threshold `sum(v)`, input `i` excitatory iff `v[i] == 1` —
once triggered with a bit-vector `a` of the same length, activates to 1
if and only if `a = v`. -/
theorem decoder_unit_correct (v a : List Nat)
    (hv : ∀ b ∈ v, b ≤ 1) (ha : ∀ x ∈ a, x ≤ 1)
    (hl : a.length = v.length) :
    ((decoderUnit v.length v).triggerArgs a).activate =
      if a = v then 1 else 0 :=
  decoderUnit_activate v.length v a hv ha rfl hl

/-- Witness for C5 at `v = [1, 0]`, `a = [1, 1]` (differing vectors). -/
theorem decoder_unit_correct_witness :
    ((∀ b ∈ [1, 0], b ≤ 1) ∧ (∀ x ∈ [1, 1], x ≤ 1)) ∧
    ((decoderUnit (List.length [1, 0]) [1, 0]).triggerArgs [1, 1]).activate =
      if ([1, 1] : List Nat) = [1, 0] then 1 else 0 :=
  ⟨⟨by decide, by decide⟩,
    decoder_unit_correct [1, 0] [1, 1] (by decide) (by decide) (by decide)⟩

/-! ### C9: monotonicity of uninhibited neurons -/

lemma triggerList_excitatory (inps : List MPInput) (z : List Nat)
    (h : ∀ inp ∈ inps, inp.excitatory = true) :
    ∀ inp ∈ triggerList inps z, inp.excitatory = true := by
  induction inps generalizing z with
  | nil => simp [triggerList]
  | cons c inps ih =>
    cases z with
    | nil => exact h
    | cons a z =>
      intro inp hmem
      rw [show triggerList (c :: inps) (a :: z) =
        c.trigger a :: triggerList inps z from rfl] at hmem
      rcases List.mem_cons.mp hmem with rfl | hmem2
      · exact h c (List.mem_cons_self c inps)
      · exact ih z (fun d hd => h d (List.mem_cons_of_mem c hd)) inp hmem2

lemma inhibitedL_of_excitatory (l : List MPInput)
    (h : ∀ inp ∈ l, inp.excitatory = true) : inhibitedL l = false := by
  rw [inhibitedL, List.any_eq_false]
  intro inp hmem
  simp [h inp hmem]

lemma excitSum_triggerList (inps : List MPInput) (z : List Nat)
    (hexc : ∀ inp ∈ inps, inp.excitatory = true)
    (hlen : z.length = inps.length) :
    excitSum (triggerList inps z) = z.sum := by
  induction inps generalizing z with
  | nil =>
    rw [List.length_nil, List.length_eq_zero] at hlen
    subst hlen
    rfl
  | cons c inps ih =>
    cases z with
    | nil => simp at hlen
    | cons a z =>
      simp only [List.length_cons, Nat.succ_inj] at hlen
      rw [show triggerList (c :: inps) (a :: z) =
        c.trigger a :: triggerList inps z from rfl, excitSum_cons, List.sum_cons,
        ih z (fun d hd => hexc d (List.mem_cons_of_mem c hd)) hlen]
      have hc : (c.trigger a).excitatory = true := hexc c (List.mem_cons_self c inps)
      rw [if_pos hc]
      rfl

lemma sum_le_of_dominates (y x : List Nat) (hy : ∀ b ∈ y, b ≤ 1)
    (hdom : List.Forall₂ (fun yi xi => yi = 1 → xi = 1) y x) :
    y.sum ≤ x.sum := by
  induction hdom with
  | nil => simp
  | cons hhead _ ih =>
    rename_i yi xi y2 x2 _
    have hyb : yi ≤ 1 := hy yi (List.mem_cons_self yi y2)
    have htail := ih (fun c hc => hy c (List.mem_cons_of_mem yi hc))
    rw [List.sum_cons, List.sum_cons]
    rcases (show yi = 0 ∨ yi = 1 by omega) with rfl | rfl
    · omega
    · have := hhead rfl
      omega

/-- C9: a neuron all of whose inputs are excitatory is monotone: if the
bit-vector `x` dominates the bit-vector `y` (every position that is 1
in `y` is 1 in `x`), then triggering the inputs with `x` activates at
least as strongly as triggering them with `y`. -/
theorem activate_monotone (t : Int) (inps : List MPInput) (x y : List Nat)
    (hexc : ∀ inp ∈ inps, inp.excitatory = true)
    (hx : ∀ b ∈ x, b ≤ 1) (hy : ∀ b ∈ y, b ≤ 1)
    (hxl : x.length = inps.length) (hyl : y.length = inps.length)
    (hdom : List.Forall₂ (fun yi xi => yi = 1 → xi = 1) y x) :
    MPNeuron.activate ⟨t, triggerList inps y⟩ ≤
      MPNeuron.activate ⟨t, triggerList inps x⟩ := by
  rw [activate_eq, activate_eq]
  dsimp only
  rw [inhibitedL_of_excitatory _ (triggerList_excitatory inps x hexc),
    inhibitedL_of_excitatory _ (triggerList_excitatory inps y hexc),
    excitSum_triggerList inps x hexc hxl, excitSum_triggerList inps y hexc hyl]
  have hsum : y.sum ≤ x.sum := sum_le_of_dominates y x hy hdom
  simp only [Bool.false_eq_true, if_false]
  split <;> split <;> omega

/-- Witness for C9 at `t = 1`, two excitatory inputs, `x = [1, 0]`,
`y = [0, 0]`. -/
theorem activate_monotone_witness :
    ((∀ inp ∈ [MPInput.new true, MPInput.new true], inp.excitatory = true) ∧
     (∀ b ∈ [1, 0], b ≤ 1) ∧ (∀ b ∈ [0, 0], b ≤ 1) ∧
     List.Forall₂ (fun yi xi => yi = 1 → xi = 1) [0, 0] [1, 0]) ∧
    MPNeuron.activate ⟨1, triggerList [MPInput.new true, MPInput.new true] [0, 0]⟩ ≤
      MPNeuron.activate ⟨1, triggerList [MPInput.new true, MPInput.new true] [1, 0]⟩ :=
  ⟨⟨by decide, by decide, by decide,
      List.Forall₂.cons (by omega) (List.Forall₂.cons (by omega) List.Forall₂.nil)⟩,
    activate_monotone 1 [MPInput.new true, MPInput.new true] [1, 0] [0, 0]
      (by decide) (by decide) (by decide) (by decide) (by decide)
      (List.Forall₂.cons (by omega) (List.Forall₂.cons (by omega) List.Forall₂.nil))⟩

/-! ### C10: the first invocation of a fresh decoder closure is correct -/

lemma ite_one_zero_eq_one (c : Prop) [Decidable c] :
    (if c then (1 : Nat) else 0) = 1 ↔ c := by
  split <;> simp [*]

lemma triggerList_idem (l : List MPInput) (a : List Nat) :
    triggerList (triggerList l a) a = triggerList l a := by
  induction l generalizing a with
  | nil => cases a <;> rfl
  | cons c l ih =>
    cases a with
    | nil => rfl
    | cons x a2 =>
      show (c.trigger x).trigger x :: triggerList (triggerList l a2) a2 = _
      rw [ih]
      rfl

lemma triggerArgs_idem (u : MPNeuron) (a : List Nat) :
    (u.triggerArgs a).triggerArgs a = u.triggerArgs a := by
  simp [MPNeuron.triggerArgs, triggerList_idem]

lemma updateLast_concat (l : List MPNeuron) (u : MPNeuron) (args : List Nat) :
    updateLast (l ++ [u]) args = l ++ [u.triggerArgs args] := by
  induction l with
  | nil => rfl
  | cons c l ih =>
    cases l with
    | nil => rfl
    | cons d l2 =>
      show c :: updateLast (d :: l2 ++ [u]) args = c :: (d :: l2 ++ [u.triggerArgs args])
      rw [ih]

lemma OR_eq (p q : Nat) (hp : p ≤ 1) (hq : q ≤ 1) :
    OR p q = if p = 1 ∨ q = 1 then 1 else 0 := by
  interval_cases p <;> interval_cases q <;> decide

lemma foldl_OR_eq (l : List MPNeuron) (b : Nat) (hb : b ≤ 1) :
    l.foldl (fun acc u => OR acc u.activate) b =
      if b = 1 ∨ ∃ u ∈ l, u.activate = 1 then 1 else 0 := by
  induction l generalizing b with
  | nil =>
    simp only [List.foldl_nil, List.not_mem_nil, false_and, exists_false, or_false]
    rcases (show b = 0 ∨ b = 1 by omega) with rfl | rfl <;> simp
  | cons u l ih =>
    rw [List.foldl_cons, OR_eq b u.activate hb (activate_le_one u),
      ih _ (by split <;> omega)]
    refine if_congr ?_ rfl rfl
    rw [ite_one_zero_eq_one]
    constructor
    · rintro ((hb1 | hu) | ⟨x, hx, hax⟩)
      · exact Or.inl hb1
      · exact Or.inr ⟨u, List.mem_cons_self u l, hu⟩
      · exact Or.inr ⟨x, List.mem_cons_of_mem u hx, hax⟩
    · rintro (hb1 | ⟨x, hx, hax⟩)
      · exact Or.inl (Or.inl hb1)
      · rcases List.mem_cons.mp hx with rfl | hx2
        · exact Or.inl (Or.inr hax)
        · exact Or.inr ⟨x, hx2, hax⟩

lemma first_call_general (n : Nat) (a : List Nat) (W : List (List Nat)) (w : List Nat)
    (hlen : ∀ v ∈ W ++ [w], v.length = n)
    (hVbits : ∀ v ∈ W ++ [w], ∀ b ∈ v, b ≤ 1)
    (hal : a.length = n) (ha : ∀ b ∈ a, b ≤ 1) :
    (decoderCall ⟨(W ++ [w]).map (decoderUnit n), false⟩ a).1 =
      if a ∈ W ++ [w] then 1 else 0 := by
  have hunit : ∀ v ∈ W ++ [w],
      (((decoderUnit n v).triggerArgs a).activate = 1 ↔ a = v) := by
    intro v hv
    rw [decoderUnit_activate n v a (hVbits v hv) ha (hlen v hv) hal]
    exact ite_one_zero_eq_one _
  have hwmem : w ∈ W ++ [w] := List.mem_append_right W (by simp)
  simp only [decoderCall, Bool.not_false, if_true, List.map_append, List.map_cons,
    List.map_nil, updateLast_concat, List.reverse_append, List.reverse_cons,
    List.reverse_nil, List.nil_append, List.singleton_append, List.headD_cons,
    triggerArgs_idem]
  rw [foldl_OR_eq _ _ (activate_le_one _)]
  refine if_congr ?_ rfl rfl
  constructor
  · rintro (h1 | ⟨u, hu, hau⟩)
    · exact ((hunit w hwmem).mp h1) ▸ hwmem
    · rcases List.mem_cons.mp hu with rfl | hu2
      · exact ((hunit w hwmem).mp hau) ▸ hwmem
      · rcases List.mem_map.mp hu2 with ⟨y, hy, rfl⟩
        rw [List.mem_reverse] at hy
        rcases List.mem_map.mp hy with ⟨v2, hv2, rfl⟩
        have hv2m : v2 ∈ W ++ [w] := List.mem_append_left [w] hv2
        exact ((hunit v2 hv2m).mp hau) ▸ hv2m
  · intro hmem
    rcases List.mem_append.mp hmem with hW | hw2
    · refine Or.inr ⟨(decoderUnit n a).triggerArgs a, ?_, ?_⟩
      · refine List.mem_cons_of_mem _ (List.mem_map.mpr
          ⟨decoderUnit n a, List.mem_reverse.mpr (List.mem_map.mpr ⟨a, hW, rfl⟩), rfl⟩)
      · exact (hunit a hmem).mpr rfl
    · have haw : a = w := by simpa using hw2
      exact Or.inl ((hunit w hwmem).mpr haw)

/-- C10: for a fresh decoder closure over a non-empty collection of
equal-length bit-vectors, the very first invocation is correct: for a
bit-vector `a` of the right arity, the first call returns 1 iff `a` is
one of the Decoder's vectors. -/
theorem first_call_correct (V : List (List Nat)) (a : List Nat) (d : Decoder)
    (hmk : Decoder.make V = .ok d)
    (hlen : ∀ v ∈ V, v.length = d.vec_length)
    (hVbits : ∀ v ∈ V, ∀ b ∈ v, b ≤ 1)
    (hal : a.length = d.vec_length) (ha : ∀ b ∈ a, b ≤ 1) :
    (decoderCall d.decode a).1 = if a ∈ V then 1 else 0 := by
  cases V with
  | nil => simp [Decoder.make] at hmk
  | cons v0 V2 =>
    have hd : d = ⟨v0 :: V2, v0.length⟩ := by
      simp only [Decoder.make, Except.ok.injEq] at hmk
      exact hmk.symm
    subst hd
    obtain ⟨W, w, hWw⟩ : ∃ W w, v0 :: V2 = W ++ [w] := by
      rcases (v0 :: V2).eq_nil_or_concat' with h | h
      · simp at h
      · exact h
    rw [Decoder.decode]
    dsimp only at hlen hal ⊢
    rw [hWw] at hlen hVbits ⊢
    exact first_call_general v0.length a W w hlen hVbits hal ha

/-- Witness for C10 at `V = [[0, 1], [1, 0]]`, `a = [1, 0]`. -/
theorem first_call_correct_witness :
    (Decoder.make [[0, 1], [1, 0]] = .ok ⟨[[0, 1], [1, 0]], 2⟩ ∧
     (∀ v ∈ [[0, 1], [1, 0]], List.length v = 2) ∧
     (∀ v ∈ [[0, 1], [1, 0]], ∀ b ∈ v, b ≤ 1) ∧
     (∀ b ∈ [1, 0], b ≤ 1)) ∧
    (decoderCall (Decoder.decode ⟨[[0, 1], [1, 0]], 2⟩) [1, 0]).1 =
      if [1, 0] ∈ [[0, 1], [1, 0]] then 1 else 0 :=
  ⟨⟨rfl, by decide, by decide, by decide⟩,
    first_call_correct [[0, 1], [1, 0]] [1, 0] ⟨[[0, 1], [1, 0]], 2⟩
      rfl (by decide) (by decide) (by decide) (by decide)⟩

end Retina
